import Mathlib

/-!
Shallow embedding of the PDF stamping application (app.py, with pdf_stamper.py
as its CLI twin).  The program overlays a "作業完了" stamp plus a date on every
page of each uploaded PDF, names the output per a keep-original / replace
policy, and saves it to a downloads folder with collision-safe renaming.

External library behaviour is modelled at the interface level:
PDF bytes are represented by their parse result (`Option PDFDoc`, `none` for
unparseable bytes), a reportlab canvas page by its list of drawing operations,
and the filesystem by an association list of names to documents.
-/

namespace PdfStamp

/-- A filename, as its list of characters. -/
abbrev FName := List Char

/-- Page geometry (PDF user-space units), as read from `page.mediabox`. -/
structure Geom where
  width : Rat
  height : Rat
deriving DecidableEq

/-- One drawing operation of a page's content, as emitted by the reportlab
canvas calls in `create_stamp_pdf`. -/
inductive DrawOp where
  | rectFill (x y w h : Rat) (r g b alpha : Rat)
  | rectStroke (x y w h : Rat) (lineWidth : Rat) (r g b : Rat)
  | text (x y : Rat) (font : String) (size : Rat) (s : String)
deriving DecidableEq

/-- A PDF page: its mediabox geometry and its content, bottom-most first. -/
structure Page where
  geom : Geom
  content : List DrawOp
deriving DecidableEq

/-- A parsed PDF document: its pages in order. -/
structure PDFDoc where
  pages : List Page
deriving DecidableEq

/-- reportlab `inch`: 72 points. -/
def inch : Rat := 72

/-- The state of `PDFStamper` (app.py lines 20-33): the font resolved at
construction, the fixed stamp text, and the current stamp date. -/
structure Stamper where
  font_name : String
  stamp_text : String
  stamp_date : String
deriving DecidableEq

/-- PDFStamper.__init__ (app.py lines 21-29).  `registerOk` records whether
`pdfmetrics.registerFont(UnicodeCIDFont('HeiseiKakuGo-W5'))` succeeded; the bare
`except:` falls back to Helvetica.  `today` models
`datetime.now().strftime("%Y/%m/%d")`. -/
def Stamper.init (registerOk : Bool) (today : String) : Stamper :=
  { font_name := if registerOk then "HeiseiKakuGo-W5" else "Helvetica",
    stamp_text := "作業完了",
    stamp_date := today }

/-- PDFStamper.set_stamp_date (app.py lines 31-33). -/
def Stamper.set_stamp_date (st : Stamper) (date_str : String) : Stamper :=
  { st with stamp_date := date_str }

/-- PDFStamper.create_stamp_pdf (app.py lines 35-58): the single-page overlay
document for a page of the given width and height.  The four canvas calls
become the page's content list, bottom-most first. -/
def Stamper.create_stamp_pdf (st : Stamper) (width height : Rat) : PDFDoc :=
  let x_pos := width - 2 * inch
  let y_pos := height - 1 * inch
  { pages := [
      { geom := { width := width, height := height },
        content := [
          DrawOp.rectFill (x_pos - 0.2 * inch) (y_pos - 0.4 * inch)
            (1.8 * inch) (0.8 * inch) 1 1 1 0.8,
          DrawOp.rectStroke (x_pos - 0.2 * inch) (y_pos - 0.4 * inch)
            (1.8 * inch) (0.8 * inch) 2 0.8 0 0,
          DrawOp.text x_pos y_pos st.font_name 12 st.stamp_text,
          DrawOp.text x_pos (y_pos - 0.2 * inch) st.font_name 10 st.stamp_date ] } ] }

/-- PyPDF2 `page.merge_page(stamp_page)`: the stamp page's content is
composited above the page's existing content; geometry is unchanged. -/
def Page.merge_page (p : Page) (stamp : Page) : Page :=
  { p with content := p.content ++ stamp.content }

/-- Errors raised while stamping one document: PyPDF2's parse failure
(`PdfReadError`) and the `IndexError` on `pages[0]` of a zero-page document
both surface as exceptions; the spec calls this kind `MalformedDocument`. -/
inductive PdfError where
  | malformed
deriving DecidableEq

/-- PDFStamper.stamp_pdf (app.py lines 60-81).  The input bytes are modelled by
their parse result: `none` when `PyPDF2.PdfReader` cannot parse them. -/
def Stamper.stamp_pdf (st : Stamper) (input : Option PDFDoc) : Except PdfError PDFDoc :=
  match input with
  | none => Except.error PdfError.malformed
  | some doc =>
    match doc.pages with
    | [] => Except.error PdfError.malformed
    | first_page :: _ =>
      let stamp_doc := st.create_stamp_pdf first_page.geom.width first_page.geom.height
      match stamp_doc.pages with
      | [] => Except.error PdfError.malformed
      | stamp_page :: _ =>
        Except.ok { pages := doc.pages.map (fun page => page.merge_page stamp_page) }

/-- Helper for `rsplitDot`: split a character list at the LAST occurrence of
`sep`, returning the parts before and after it, or `none` when `sep` does not
occur. -/
def splitLast (sep : Char) : List Char → Option (List Char × List Char)
  | [] => none
  | c :: cs =>
    match splitLast sep cs with
    | some (a, b) => some (c :: a, b)
    | none => if c = sep then some ([], cs) else none

/-- Python's `filename.rsplit('.', 1)`: split at the last dot when there is
one, else return the whole name as a single part. -/
def rsplitDot (s : FName) : List FName :=
  match splitLast '.' s with
  | some (a, b) => [a, b]
  | none => [s]

/-- The fixed done suffix `_完了` appended to output names in keep-original
mode (app.py lines 195-197). -/
def doneSuffix : FName := '_' :: '完' :: '了' :: []

/-- Output-name computation of process_files (app.py lines 190-200): in
keep-original mode insert `_完了` before the last extension, or append it when
the name has no dot; in replace mode keep the original name. -/
def outputName (keep_original : Bool) (name : FName) : FName :=
  if keep_original then
    match rsplitDot name with
    | [stem, ext] => stem ++ doneSuffix ++ '.' :: ext
    | _ => name ++ doneSuffix
  else name

/-- Candidate name tried at a given counter by the collision loop of
save_processed_file (app.py lines 242-247): `f"{stem}_{counter}.{ext}"`, or
`f"{filename}_{counter}"` when the name has no dot.  `Nat.toDigits 10 counter`
is exactly the character list of `Nat.repr counter`, i.e. of Python's
`str(counter)`. -/
def addCounter (filename : FName) (counter : Nat) : FName :=
  match rsplitDot filename with
  | [stem, ext] => stem ++ '_' :: Nat.toDigits 10 counter ++ '.' :: ext
  | _ => filename ++ '_' :: Nat.toDigits 10 counter

/-- Numeric value of a decimal digit character. -/
def digitVal (c : Char) : Nat := c.toNat - '0'.toNat

/-- Value of a most-significant-first decimal digit list. -/
def valOfDigits (ds : List Char) : Nat := ds.foldl (fun a c => 10 * a + digitVal c) 0

theorem valOfDigits_append_singleton (ds : List Char) (c : Char) :
    valOfDigits (ds ++ [c]) = 10 * valOfDigits ds + digitVal c := by
  simp [valOfDigits, List.foldl_append]

theorem digitVal_digitChar : ∀ n < 10, digitVal (Nat.digitChar n) = n := by decide

theorem digitChar_mod_ten_ne_dot (n : Nat) : Nat.digitChar (n % 10) ≠ '.' :=
  (by decide : ∀ m < 10, Nat.digitChar m ≠ '.') _ (Nat.mod_lt _ (by norm_num))

theorem toDigitsCore_append (b fuel : Nat) :
    ∀ (n : Nat) (ds : List Char),
      Nat.toDigitsCore b fuel n ds = Nat.toDigitsCore b fuel n [] ++ ds := by
  induction fuel with
  | zero => intro n ds; simp [Nat.toDigitsCore]
  | succ fuel ih =>
    intro n ds
    simp only [Nat.toDigitsCore]
    by_cases h : n / b = 0
    · simp [h]
    · simp only [if_neg h]
      rw [ih (n / b) (Nat.digitChar (n % b) :: ds), ih (n / b) [Nat.digitChar (n % b)]]
      simp

theorem valOfDigits_toDigitsCore (fuel : Nat) :
    ∀ n : Nat, n < 10 ^ fuel → valOfDigits (Nat.toDigitsCore 10 fuel n []) = n := by
  induction fuel with
  | zero =>
    intro n h
    have h0 : n = 0 := by simpa using h
    subst h0
    rfl
  | succ fuel ih =>
    intro n h
    have hmod : n % 10 < 10 := Nat.mod_lt _ (by norm_num)
    by_cases h0 : n / 10 = 0
    · have hn : n < 10 := by omega
      have hv : Nat.toDigitsCore 10 (fuel + 1) n [] = [Nat.digitChar (n % 10)] := by
        simp [Nat.toDigitsCore, h0]
      have hv2 : valOfDigits [Nat.digitChar (n % 10)] = digitVal (Nat.digitChar (n % 10)) := by
        simp [valOfDigits]
      rw [hv, hv2, digitVal_digitChar _ hmod, Nat.mod_eq_of_lt hn]
    · have hv : Nat.toDigitsCore 10 (fuel + 1) n [] =
          Nat.toDigitsCore 10 fuel (n / 10) [Nat.digitChar (n % 10)] := by
        simp [Nat.toDigitsCore, h0]
      rw [hv, toDigitsCore_append, valOfDigits_append_singleton,
        digitVal_digitChar _ hmod]
      have hdiv : n / 10 < 10 ^ fuel := by
        rw [Nat.div_lt_iff_lt_mul (by norm_num : 0 < 10)]
        calc n < 10 ^ (fuel + 1) := h
        _ = 10 ^ fuel * 10 := by ring
      rw [ih (n / 10) hdiv]
      omega

theorem valOfDigits_toDigits (n : Nat) : valOfDigits (Nat.toDigits 10 n) = n := by
  have h1 : n < 10 ^ (n + 1) := by
    calc n < 2 ^ n := Nat.lt_two_pow n
    _ ≤ 10 ^ n := Nat.pow_le_pow_left (by norm_num) n
    _ ≤ 10 ^ (n + 1) := Nat.pow_le_pow_right (by norm_num) (Nat.le_succ n)
  exact valOfDigits_toDigitsCore (n + 1) n h1

theorem toDigits_injective {m n : Nat} (h : Nat.toDigits 10 m = Nat.toDigits 10 n) :
    m = n := by
  have h2 := congrArg valOfDigits h
  rwa [valOfDigits_toDigits, valOfDigits_toDigits] at h2

theorem dot_not_mem_toDigitsCore (fuel : Nat) :
    ∀ (n : Nat) (ds : List Char), '.' ∉ ds → '.' ∉ Nat.toDigitsCore 10 fuel n ds := by
  induction fuel with
  | zero => intro n ds h; simpa [Nat.toDigitsCore] using h
  | succ fuel ih =>
    intro n ds h
    simp only [Nat.toDigitsCore]
    by_cases h0 : n / 10 = 0
    · simp only [if_pos h0]
      intro hc
      rcases List.mem_cons.mp hc with hc | hc
      · exact digitChar_mod_ten_ne_dot n hc.symm
      · exact h hc
    · simp only [if_neg h0]
      refine ih (n / 10) (Nat.digitChar (n % 10) :: ds) ?_
      intro hc
      rcases List.mem_cons.mp hc with hc | hc
      · exact digitChar_mod_ten_ne_dot n hc.symm
      · exact h hc

theorem dot_not_mem_toDigits (n : Nat) : '.' ∉ Nat.toDigits 10 n :=
  dot_not_mem_toDigitsCore (n + 1) n [] (by simp)

theorem takeWhile_append_dot (xs ys : List Char) (h : '.' ∉ xs) :
    (xs ++ '.' :: ys).takeWhile (fun c => !decide (c = '.')) = xs := by
  induction xs with
  | nil => simp
  | cons x xs ih =>
    have hx : x ≠ '.' := fun hx => h (hx ▸ List.mem_cons_self x xs)
    have hxs : '.' ∉ xs := fun hm => h (List.mem_cons_of_mem _ hm)
    simp [List.takeWhile_cons, hx, ih hxs]

theorem append_dot_cancel {d1 d2 : List Char} (h1 : '.' ∉ d1) (h2 : '.' ∉ d2)
    {ys zs : List Char} (h : d1 ++ '.' :: ys = d2 ++ '.' :: zs) : d1 = d2 := by
  have h3 := congrArg (List.takeWhile (fun c => !decide (c = '.'))) h
  rwa [takeWhile_append_dot _ _ h1, takeWhile_append_dot _ _ h2] at h3

theorem addCounter_injective (filename : FName) :
    Function.Injective (addCounter filename) := by
  intro k1 k2 h
  rcases hs : splitLast '.' filename with _ | ⟨stem, ext⟩
  · have hr : rsplitDot filename = [filename] := by rw [rsplitDot, hs]
    simp only [addCounter, hr, List.cons_append, List.append_assoc] at h
    have h2 := List.append_cancel_left h
    simp only [List.cons.injEq, true_and] at h2
    exact toDigits_injective h2
  · have hr : rsplitDot filename = [stem, ext] := by rw [rsplitDot, hs]
    simp only [addCounter, hr, List.cons_append, List.append_assoc] at h
    have h2 := List.append_cancel_left h
    simp only [List.cons.injEq, true_and] at h2
    exact toDigits_injective
      (append_dot_cancel (dot_not_mem_toDigits k1) (dot_not_mem_toDigits k2) h2)

theorem exists_counter_free (existing : List FName) (filename : FName) :
    ∃ k : Nat, addCounter filename (k + 1) ∉ existing := by
  by_contra hall
  push_neg at hall
  have hinj : Function.Injective (fun k : Nat => addCounter filename (k + 1)) := by
    intro a b hab
    have := addCounter_injective filename hab
    omega
  have hsub : Set.range (fun k : Nat => addCounter filename (k + 1)) ⊆ {x | x ∈ existing} := by
    rintro x ⟨k, rfl⟩
    exact hall k
  exact (Set.infinite_range_of_injective hinj) ((existing.finite_toSet).subset hsub)

/-- The collision loop of save_processed_file (app.py lines 239-248): starting
from `filename`, try `addCounter filename 1`, `addCounter filename 2`, … and
stop at the first candidate name that does not already exist in the folder. -/
def availableName (existing : List FName) (filename : FName) : FName :=
  if filename ∈ existing then
    addCounter filename (Nat.find (exists_counter_free existing filename) + 1)
  else filename

/-- The destination folder: the files it holds (name-content association list,
in insertion order) and whether writing to it succeeds (`false` models the
exceptions of save_processed_file's `try`: permissions, missing path, disk
full). -/
structure Fs where
  entries : List (FName × PDFDoc)
  writable : Bool
deriving DecidableEq

/-- Names present in the folder, as probed by `save_file.exists()`. -/
def Fs.names (fs : Fs) : List FName := fs.entries.map Prod.fst

/-- Observable UI events of a batch run: the `st.error` message for a stamping
failure (carrying the file identifier and the error), the `st.error` message
for a save failure, and `progress_bar.progress` updates. -/
inductive Event where
  | stampError (file : FName) (e : PdfError)
  | saveError
  | progress (value : Rat)
deriving DecidableEq

/-- save_processed_file (app.py lines 233-258): find a collision-free name in
the downloads folder and write the data under it, returning the written name;
when the folder is not writable the exception is caught, a save-error message
is shown, and the empty string (modelled `none`) is returned with nothing
written. -/
def save_processed_file (fs : Fs) (filename : FName) (file_data : PDFDoc) :
    Fs × Option FName × List Event :=
  if fs.writable then
    let final := availableName fs.names filename
    ({ fs with entries := fs.entries ++ [(final, file_data)] }, some final, [])
  else
    (fs, none, [Event.saveError])

/-- An uploaded file: its name, the parse result of its bytes (`none` when the
bytes are not a parseable PDF), and `len(file_bytes)`. -/
structure UFile where
  name : FName
  parsed : Option PDFDoc
  size : Nat
deriving DecidableEq

/-- The per-file result dictionary appended by process_files (app.py lines
205-212). -/
structure ProcessedFile where
  name : FName
  original_name : FName
  data : PDFDoc
  original_size : Nat
  processed_size : Nat
  save_path : Option FName
deriving DecidableEq

/-- The loop of process_files (app.py lines 180-219) over the remaining files;
`i` is the enumerate index and `n` the total count.  `byteLen` models
`len(...)` of the serialized output bytes (serialization is external).  A
stamping failure shows an error and `continue`s — skipping that iteration's
progress update. -/
def processFilesGo (byteLen : PDFDoc → Nat) (stamper : Stamper) (keep_original : Bool)
    (n : Nat) : Fs → Nat → List UFile → Fs × List ProcessedFile × List Event
  | fs, _, [] => (fs, [], [])
  | fs, i, u :: rest =>
    match stamper.stamp_pdf u.parsed with
    | Except.error e =>
      let r := processFilesGo byteLen stamper keep_original n fs (i + 1) rest
      (r.1, r.2.1, Event.stampError u.name e :: r.2.2)
    | Except.ok stamped =>
      let new_name := outputName keep_original u.name
      let s := save_processed_file fs new_name stamped
      let result : ProcessedFile :=
        { name := new_name, original_name := u.name, data := stamped,
          original_size := u.size, processed_size := byteLen stamped,
          save_path := s.2.1 }
      let r := processFilesGo byteLen stamper keep_original n s.1 (i + 1) rest
      (r.1, result :: r.2.1,
        s.2.2 ++ Event.progress (((i : Rat) + 1) / (n : Rat)) :: r.2.2)

/-- process_files (app.py lines 173-231): the initial `st.progress(0)`, the
per-file loop, and the final unconditional `progress_bar.progress(1.0)`. -/
def process_files (byteLen : PDFDoc → Nat) (stamper : Stamper)
    (uploaded_files : List UFile) (keep_original : Bool) (fs : Fs) :
    Fs × List ProcessedFile × List Event :=
  let r := processFilesGo byteLen stamper keep_original uploaded_files.length fs 0
    uploaded_files
  (r.1, r.2.1, Event.progress 0 :: r.2.2 ++ [Event.progress 1])

/-- Whether an event is a recorded stamping failure. -/
def Event.isStampError : Event → Bool
  | Event.stampError _ _ => true
  | _ => false

/-- Whether an event is a progress-bar update. -/
def Event.isProgress : Event → Bool
  | Event.progress _ => true
  | _ => false

/-- The failure entry a file contributes to a batch: its identifier and the
error, when stamping it fails; nothing when it succeeds. -/
def errEntry (st : Stamper) (u : UFile) : Option Event :=
  match st.stamp_pdf u.parsed with
  | Except.error e => some (Event.stampError u.name e)
  | Except.ok _ => none

/-- The progress update the loop iteration for the enumerated file `p` emits:
`(index + 1) / total` when stamping succeeds, nothing when it fails (the
`continue` skips the update). -/
def progEntry (st : Stamper) (n : Nat) (p : Nat × UFile) : Option Event :=
  if (st.stamp_pdf p.2.parsed).isOk
  then some (Event.progress (((p.1 : Rat) + 1) / (n : Rat))) else none

/-- The content of the single overlay page produced by `create_stamp_pdf`. -/
def overlayOps (st : Stamper) (width height : Rat) : List DrawOp :=
  match (st.create_stamp_pdf width height).pages with
  | p :: _ => p.content
  | [] => []

/-- The fonts used by the text operations of an overlay, in drawing order. -/
def textFonts (ops : List DrawOp) : List String :=
  ops.filterMap fun op =>
    match op with
    | DrawOp.text _ _ f _ _ => some f
    | _ => none

/-- A concrete two-page letter-size document, for witnesses. -/
def docA : PDFDoc :=
  { pages := [
      { geom := { width := 612, height := 792 }, content := [] },
      { geom := { width := 612, height := 792 },
        content := [DrawOp.text 100 700 "Helvetica" 12 "hello"] } ] }

/-- A concrete single-page document, for witnesses. -/
def docB : PDFDoc :=
  { pages := [ { geom := { width := 612, height := 792 }, content := [] } ] }

/-- A concrete stamper, constructed with a successful font registration. -/
def stamperA : Stamper := Stamper.init true "2024/12/25"

/-- An uploaded file whose bytes do not parse as a PDF. -/
def fileBad : UFile := { name := "a.pdf".toList, parsed := none, size := 3 }

/-- An uploaded file holding the single-page document. -/
def fileGood : UFile := { name := "b.pdf".toList, parsed := some docB, size := 10 }

/-- An empty, writable destination folder. -/
def fsEmpty : Fs := { entries := [], writable := true }

/-- A destination folder on which every write fails. -/
def fsReadOnly : Fs := { entries := [], writable := false }

/-- The name `report.pdf`, for the collision scenario. -/
def nameRep : FName := "report.pdf".toList

/-- A writable folder already holding `report.pdf`. -/
def fsRep : Fs := { entries := [(nameRep, docB)], writable := true }

/-- A concrete byte-length function for the external serializer, for
witnesses. -/
def byteLen0 : PDFDoc → Nat := fun _ => 0

/-- C1: for every parseable input document with at least one page, `stamp_pdf`
succeeds, the output has exactly the input's page count, pages stay in their
original order with unchanged geometry, and each output page's content is the
original page content with the overlay composited on top of it — the overlay
never replaces original content. -/
theorem stamp_pdf_preserves_pages (st : Stamper) (doc : PDFDoc) (h : doc.pages ≠ []) :
    ∃ out, st.stamp_pdf (some doc) = Except.ok out ∧
      out.pages.length = doc.pages.length ∧
      out.pages = doc.pages.map (fun p =>
        { geom := p.geom,
          content := p.content ++
            overlayOps st (doc.pages.head h).geom.width (doc.pages.head h).geom.height }) := by
  obtain ⟨pages⟩ := doc
  cases pages with
  | nil => exact absurd rfl h
  | cons first rest =>
    refine ⟨_, rfl, ?_, ?_⟩
    · simp [Stamper.stamp_pdf]
    · simp [Stamper.stamp_pdf, Stamper.create_stamp_pdf, Page.merge_page, overlayOps]

/-- C1 witness: the two-page document `docA` stamped by `stamperA`. -/
theorem stamp_pdf_preserves_pages_witness :
    docA.pages ≠ [] ∧
    ∃ out, stamperA.stamp_pdf (some docA) = Except.ok out ∧
      out.pages.length = docA.pages.length ∧
      out.pages = docA.pages.map (fun p =>
        { geom := p.geom, content := p.content ++ overlayOps stamperA 612 792 }) :=
  ⟨by decide, stamp_pdf_preserves_pages stamperA docA (by decide)⟩

theorem splitLast_eq_none {sep : Char} {s : List Char} :
    splitLast sep s = none ↔ sep ∉ s := by
  induction s with
  | nil => simp [splitLast]
  | cons c cs ih =>
    rw [splitLast]
    cases hs : splitLast sep cs with
    | some p =>
      obtain ⟨a, b⟩ := p
      have hmem : sep ∈ cs := by
        by_contra hnot
        rw [ih.mpr hnot] at hs
        exact Option.noConfusion hs
      simp [List.mem_cons, hmem]
    | none =>
      by_cases hc : c = sep
      · subst hc
        simp [List.mem_cons]
      · simp [hc, List.mem_cons, ih.mp hs, Ne.symm hc]

theorem splitLast_append_last {sep : Char} (stem ext : List Char) (hext : sep ∉ ext) :
    splitLast sep (stem ++ sep :: ext) = some (stem, ext) := by
  induction stem with
  | nil =>
    rw [List.nil_append, splitLast, splitLast_eq_none.mpr hext]
    simp
  | cons c cs ih =>
    rw [List.cons_append, splitLast, ih]

theorem rsplitDot_append (stem ext : FName) (hext : '.' ∉ ext) :
    rsplitDot (stem ++ '.' :: ext) = [stem, ext] := by
  rw [rsplitDot, splitLast_append_last stem ext hext]

theorem rsplitDot_no_dot {name : FName} (h : '.' ∉ name) : rsplitDot name = [name] := by
  rw [rsplitDot, splitLast_eq_none.mpr h]

theorem rsplitDot_length_one {s : FName} : (rsplitDot s).length = 1 ↔ '.' ∉ s := by
  cases hs : splitLast '.' s with
  | none => simp [rsplitDot, hs, splitLast_eq_none.mp hs]
  | some p =>
    obtain ⟨a, b⟩ := p
    have hmem : '.' ∈ s := by
      by_contra hnot
      rw [splitLast_eq_none.mpr hnot] at hs
      exact Option.noConfusion hs
    simp [rsplitDot, hs, hmem]

/-- C5: keep-original mode inserts the fixed `_完了` suffix before the last
extension; a name with no dot gets the suffix appended whole (so `notes`
becomes `notes_完了`); replace mode keeps the original name. -/
theorem output_naming_policy (stem ext name : FName) :
    ('.' ∉ ext → outputName true (stem ++ '.' :: ext) = stem ++ doneSuffix ++ '.' :: ext) ∧
    ('.' ∉ name → outputName true name = name ++ doneSuffix) ∧
    outputName false name = name ∧
    outputName true "notes".toList = "notes".toList ++ doneSuffix := by
  refine ⟨?_, ?_, rfl, by decide⟩
  · intro hext
    simp [outputName, rsplitDot_append stem ext hext]
  · intro hname
    simp [outputName, rsplitDot_no_dot hname]

/-- C10: a name that begins with a dot and has no other dot is split into an
empty stem and an extension, so keep-original naming yields `_完了.{rest}` and
the first collision candidate is `_1.{rest}`; the no-extension branch is taken
exactly for names with no dot at all. -/
theorem leading_dot_extension (rest s : FName) :
    ('.' ∉ rest → outputName true ('.' :: rest) = doneSuffix ++ '.' :: rest) ∧
    ('.' ∉ rest → addCounter ('.' :: rest) 1 = '_' :: '1' :: '.' :: rest) ∧
    ((rsplitDot s).length = 1 ↔ '.' ∉ s) ∧
    outputName true ('.' :: "notes".toList) = "_完了.notes".toList ∧
    addCounter ('.' :: "notes".toList) 1 = "_1.notes".toList := by
  refine ⟨?_, ?_, rsplitDot_length_one, by decide, by decide⟩
  · intro hrest
    have hr : rsplitDot ('.' :: rest) = [[], rest] := by
      simpa using rsplitDot_append [] rest hrest
    simp [outputName, hr]
  · intro hrest
    have hr : rsplitDot ('.' :: rest) = [[], rest] := by
      simpa using rsplitDot_append [] rest hrest
    simp [addCounter, hr, (by decide : Nat.toDigits 10 1 = ['1'])]

theorem except_isOk_ok {ε α : Type} (a : α) : (Except.ok a : Except ε α).isOk = true := rfl

theorem except_isOk_error {ε α : Type} (e : ε) :
    (Except.error e : Except ε α).isOk = false := rfl

theorem processFilesGo_processed_names (byteLen : PDFDoc → Nat) (st : Stamper)
    (keep : Bool) (n : Nat) :
    ∀ (files : List UFile) (fs : Fs) (i : Nat),
      ((processFilesGo byteLen st keep n fs i files).2.1).map ProcessedFile.original_name
        = (files.filter fun u => (st.stamp_pdf u.parsed).isOk).map UFile.name := by
  intro files
  induction files with
  | nil => intro fs i; rfl
  | cons u rest ih =>
    intro fs i
    cases hres : st.stamp_pdf u.parsed with
    | error e =>
      simp [processFilesGo, hres, List.filter_cons, except_isOk_error, ih]
    | ok stamped =>
      simp [processFilesGo, hres, List.filter_cons, except_isOk_ok, ih]

theorem save_events_no_stamp_error (fs : Fs) (nm : FName) (d : PDFDoc) :
    ((save_processed_file fs nm d).2.2).filter Event.isStampError = [] := by
  by_cases hw : fs.writable <;> simp [save_processed_file, hw, Event.isStampError]

theorem save_events_no_progress (fs : Fs) (nm : FName) (d : PDFDoc) :
    ((save_processed_file fs nm d).2.2).filter Event.isProgress = [] := by
  by_cases hw : fs.writable <;> simp [save_processed_file, hw, Event.isProgress]

theorem processFilesGo_stamp_errors (byteLen : PDFDoc → Nat) (st : Stamper)
    (keep : Bool) (n : Nat) :
    ∀ (files : List UFile) (fs : Fs) (i : Nat),
      ((processFilesGo byteLen st keep n fs i files).2.2).filter Event.isStampError
        = files.filterMap (errEntry st) := by
  intro files
  induction files with
  | nil => intro fs i; rfl
  | cons u rest ih =>
    intro fs i
    cases hres : st.stamp_pdf u.parsed with
    | error e =>
      simp [processFilesGo, hres, List.filterMap_cons, errEntry, ih, Event.isStampError,
        List.filter_cons]
    | ok stamped =>
      simp [processFilesGo, hres, List.filterMap_cons, errEntry, ih, Event.isStampError,
        List.filter_cons, List.filter_append, save_events_no_stamp_error]

theorem processFilesGo_progress_events (byteLen : PDFDoc → Nat) (st : Stamper)
    (keep : Bool) (n : Nat) :
    ∀ (files : List UFile) (fs : Fs) (i : Nat),
      ((processFilesGo byteLen st keep n fs i files).2.2).filter Event.isProgress
        = (files.enumFrom i).filterMap (progEntry st n) := by
  intro files
  induction files with
  | nil => intro fs i; rfl
  | cons u rest ih =>
    intro fs i
    cases hres : st.stamp_pdf u.parsed with
    | error e =>
      simp [processFilesGo, hres, List.enumFrom, List.filterMap_cons, progEntry, ih,
        Event.isProgress, List.filter_cons, except_isOk_error]
    | ok stamped =>
      simp [processFilesGo, hres, List.enumFrom, List.filterMap_cons, progEntry, ih,
        Event.isProgress, List.filter_cons, List.filter_append, except_isOk_ok,
        save_events_no_progress]

theorem processFilesGo_mem_data (byteLen : PDFDoc → Nat) (st : Stamper)
    (keep : Bool) (n : Nat) :
    ∀ (files : List UFile) (fs : Fs) (i : Nat) (p : ProcessedFile),
      p ∈ (processFilesGo byteLen st keep n fs i files).2.1 →
      ∃ u ∈ files, st.stamp_pdf u.parsed = Except.ok p.data := by
  intro files
  induction files with
  | nil => intro fs i p hp; simp [processFilesGo] at hp
  | cons u rest ih =>
    intro fs i p hp
    cases hres : st.stamp_pdf u.parsed with
    | error e =>
      simp only [processFilesGo, hres] at hp
      obtain ⟨v, hv, he⟩ := ih _ _ _ hp
      exact ⟨v, List.mem_cons_of_mem _ hv, he⟩
    | ok stamped =>
      simp only [processFilesGo, hres] at hp
      rcases List.mem_cons.mp hp with hp | hp
      · subst hp
        exact ⟨u, List.mem_cons_self _ _, by rw [hres]⟩
      · obtain ⟨v, hv, he⟩ := ih _ _ _ hp
        exact ⟨v, List.mem_cons_of_mem _ hv, he⟩

theorem filter_ok_filterMap_err_length (st : Stamper) (files : List UFile) :
    (files.filter fun u => (st.stamp_pdf u.parsed).isOk).length
      + (files.filterMap (errEntry st)).length = files.length := by
  induction files with
  | nil => rfl
  | cons u rest ih =>
    cases hres : st.stamp_pdf u.parsed with
    | error e =>
      simp only [List.filter_cons, List.filterMap_cons, errEntry, hres, except_isOk_error,
        Bool.false_eq_true, if_false, List.length_cons]
      omega
    | ok v =>
      simp only [List.filter_cons, List.filterMap_cons, errEntry, hres, except_isOk_ok,
        if_true, List.length_cons]
      omega

/-- C2: every stamping failure in a batch is caught at the per-document level
and recorded as an error entry holding the file identifier and the error,
and processing continues: the recorded failures are exactly the failing files
in order, the delivered results are exactly the successfully stamped files in
order (failures never block them), and together they account for the whole
batch. -/
theorem batch_isolates_failures (byteLen : PDFDoc → Nat) (st : Stamper)
    (files : List UFile) (keep : Bool) (fs : Fs) :
    ((process_files byteLen st files keep fs).2.2).filter Event.isStampError
        = files.filterMap (errEntry st) ∧
    ((process_files byteLen st files keep fs).2.1).map ProcessedFile.original_name
        = (files.filter fun u => (st.stamp_pdf u.parsed).isOk).map UFile.name ∧
    ((process_files byteLen st files keep fs).2.1).length
        + (files.filterMap (errEntry st)).length = files.length := by
  have h1 := processFilesGo_stamp_errors byteLen st keep files.length files fs 0
  have h2 := processFilesGo_processed_names byteLen st keep files.length files fs 0
  refine ⟨?_, ?_, ?_⟩
  · simpa [process_files, Event.isStampError, List.filter_append, List.filter_cons]
      using h1
  · simpa [process_files] using h2
  · have h3 := congrArg List.length h2
    simp only [List.length_map] at h3
    have h4 := filter_ok_filterMap_err_length st files
    simpa [process_files] using by omega

/-- C3: an input that does not parse or has zero pages makes `stamp_pdf` fail
with the malformed-document error instead of returning output, and in any
batch holding it the file contributes a recorded failure entry and never
appears among the successes. -/
theorem malformed_input_fails (st : Stamper) (u : UFile)
    (h : u.parsed = none ∨ u.parsed = some { pages := [] }) :
    st.stamp_pdf u.parsed = Except.error PdfError.malformed ∧
    errEntry st u = some (Event.stampError u.name PdfError.malformed) ∧
    ∀ (byteLen : PDFDoc → Nat) (files : List UFile) (keep : Bool) (fs : Fs),
      u ∈ files →
      Event.stampError u.name PdfError.malformed ∈ files.filterMap (errEntry st) ∧
      Event.stampError u.name PdfError.malformed
          ∈ (process_files byteLen st files keep fs).2.2 ∧
      u ∉ files.filter (fun v => (st.stamp_pdf v.parsed).isOk) ∧
      ((process_files byteLen st files keep fs).2.1).length
          + (files.filterMap (errEntry st)).length = files.length := by
  have herr : st.stamp_pdf u.parsed = Except.error PdfError.malformed := by
    rcases h with h | h <;> rw [h] <;> rfl
  have hentry : errEntry st u = some (Event.stampError u.name PdfError.malformed) := by
    rw [errEntry, herr]
  refine ⟨herr, hentry, ?_⟩
  intro byteLen files keep fs hu
  have hmem : Event.stampError u.name PdfError.malformed ∈ files.filterMap (errEntry st) :=
    List.mem_filterMap.mpr ⟨u, hu, hentry⟩
  refine ⟨hmem, ?_, ?_, (batch_isolates_failures byteLen st files keep fs).2.2⟩
  · have h1 := processFilesGo_stamp_errors byteLen st keep files.length files fs 0
    have : Event.stampError u.name PdfError.malformed
        ∈ ((processFilesGo byteLen st keep files.length fs 0 files).2.2).filter
          Event.isStampError := by rw [h1]; exact hmem
    have h2 := List.mem_of_mem_filter this
    simp [process_files]
    exact h2
  · intro hbad
    have := (List.mem_filter.mp hbad).2
    rw [herr] at this
    exact absurd this (by simp [except_isOk_error])

/-- C3 witness: the unparseable upload `fileBad` in the batch
`[fileBad, fileGood]`. -/
theorem malformed_input_fails_witness :
    (fileBad.parsed = none ∨ fileBad.parsed = some { pages := [] }) ∧
    (stamperA.stamp_pdf fileBad.parsed = Except.error PdfError.malformed ∧
     errEntry stamperA fileBad
        = some (Event.stampError fileBad.name PdfError.malformed) ∧
     ∀ (byteLen : PDFDoc → Nat) (files : List UFile) (keep : Bool) (fs : Fs),
       fileBad ∈ files →
       Event.stampError fileBad.name PdfError.malformed
           ∈ files.filterMap (errEntry stamperA) ∧
       Event.stampError fileBad.name PdfError.malformed
           ∈ (process_files byteLen stamperA files keep fs).2.2 ∧
       fileBad ∉ files.filter (fun v => (stamperA.stamp_pdf v.parsed).isOk) ∧
       ((process_files byteLen stamperA files keep fs).2.1).length
           + (files.filterMap (errEntry stamperA)).length = files.length) :=
  ⟨Or.inl rfl, malformed_input_fails stamperA fileBad (Or.inl rfl)⟩

theorem stamp_pdf_ok_date (st : Stamper) (input : Option PDFDoc) (out : PDFDoc)
    (hok : st.stamp_pdf input = Except.ok out) :
    ∀ page ∈ out.pages, ∃ x y f, DrawOp.text x y f 10 st.stamp_date ∈ page.content := by
  cases input with
  | none => exact absurd hok (by simp [Stamper.stamp_pdf])
  | some doc =>
    obtain ⟨pages⟩ := doc
    cases pages with
    | nil => exact absurd hok (by simp [Stamper.stamp_pdf])
    | cons first rest =>
      simp only [Stamper.stamp_pdf, Stamper.create_stamp_pdf, Except.ok.injEq] at hok
      subst hok
      intro page hpage
      simp only [List.mem_map] at hpage
      obtain ⟨p, hp, rfl⟩ := hpage
      refine ⟨first.geom.width - 2 * inch, first.geom.height - 1 * inch - 0.2 * inch,
        st.font_name, ?_⟩
      simp [Page.merge_page, Stamper.create_stamp_pdf]

/-- C6: the overlay's second line is exactly the configured date string,
echoed verbatim without parsing or validation; setting the date again before a
run overrides any earlier value, and every page of every document delivered by
a run carries that run's configured date. -/
theorem stamp_date_verbatim (st : Stamper) (d : String) :
    (st.set_stamp_date d).stamp_date = d ∧
    (∀ d0, (st.set_stamp_date d0).set_stamp_date d = st.set_stamp_date d) ∧
    (∀ width height : Rat,
      DrawOp.text (width - 2 * inch) (height - 1 * inch - 0.2 * inch)
          (st.set_stamp_date d).font_name 10 d
        ∈ overlayOps (st.set_stamp_date d) width height) ∧
    (∀ (byteLen : PDFDoc → Nat) (files : List UFile) (keep : Bool) (fs : Fs),
      ∀ p ∈ (process_files byteLen (st.set_stamp_date d) files keep fs).2.1,
        ∀ page ∈ p.data.pages, ∃ x y f, DrawOp.text x y f 10 d ∈ page.content) := by
  refine ⟨rfl, fun d0 => rfl, ?_, ?_⟩
  · intro width height
    simp [overlayOps, Stamper.create_stamp_pdf, Stamper.set_stamp_date]
  · intro byteLen files keep fs p hp page hpage
    have hp2 : p ∈ (processFilesGo byteLen (st.set_stamp_date d) keep files.length
        fs 0 files).2.1 := by simpa [process_files] using hp
    obtain ⟨u, hu, hok⟩ :=
      processFilesGo_mem_data byteLen (st.set_stamp_date d) keep files.length
        files fs 0 p hp2
    exact stamp_pdf_ok_date (st.set_stamp_date d) u.parsed p.data hok page hpage

/-- C9: font resolution never fails: construction resolves either the
preferred CID font or the Helvetica fallback, exactly once; date changes never
alter it; every render uses exactly that font for both text lines; any two
renders use the same fonts; and rendering always yields a single page of the
requested size. -/
theorem font_resolution_total (registerOk : Bool) (today d : String) (w h w2 h2 : Rat) :
    ((Stamper.init registerOk today).font_name = "HeiseiKakuGo-W5" ∨
      (Stamper.init registerOk today).font_name = "Helvetica") ∧
    (registerOk = false → (Stamper.init registerOk today).font_name = "Helvetica") ∧
    ((Stamper.init registerOk today).set_stamp_date d).font_name
        = (Stamper.init registerOk today).font_name ∧
    textFonts (overlayOps (Stamper.init registerOk today) w h)
        = [(Stamper.init registerOk today).font_name,
           (Stamper.init registerOk today).font_name] ∧
    textFonts (overlayOps (Stamper.init registerOk today) w2 h2)
        = textFonts (overlayOps (Stamper.init registerOk today) w h) ∧
    ((Stamper.init registerOk today).create_stamp_pdf w h).pages.map Page.geom
        = [{ width := w, height := h }] := by
  refine ⟨?_, ?_, rfl, ?_, ?_, ?_⟩
  · cases registerOk
    · exact Or.inr rfl
    · exact Or.inl rfl
  · intro hf
    subst hf
    rfl
  · simp [textFonts, overlayOps, Stamper.create_stamp_pdf]
  · simp [textFonts, overlayOps, Stamper.create_stamp_pdf]
  · simp [Stamper.create_stamp_pdf]

/-- C4: with a writable destination, persistence writes under the first
available name — the original name when it is free, else `stem_c.ext` for the
least counter `c ≥ 1` whose candidate is free — appending a new entry and
leaving every pre-existing file in the folder untouched. -/
theorem collision_safe_save (fs : Fs) (filename : FName) (file_data : PDFDoc)
    (hw : fs.writable = true) :
    ∃ final : FName,
      save_processed_file fs filename file_data
        = ({ fs with entries := fs.entries ++ [(final, file_data)] }, some final, []) ∧
      final ∉ fs.names ∧
      ((filename ∉ fs.names ∧ final = filename) ∨
        (filename ∈ fs.names ∧ ∃ c : Nat, 1 ≤ c ∧ final = addCounter filename c ∧
          addCounter filename c ∉ fs.names ∧
          ∀ j : Nat, 1 ≤ j → j < c → addCounter filename j ∈ fs.names)) ∧
      ∀ e ∈ fs.entries, e ∈ fs.entries ++ [(final, file_data)] := by
  refine ⟨availableName fs.names filename, ?_, ?_, ?_,
    fun e he => List.mem_append_left _ he⟩
  · simp [save_processed_file, hw]
  · rw [availableName]
    by_cases hmem : filename ∈ fs.names
    · rw [if_pos hmem]
      exact Nat.find_spec (exists_counter_free fs.names filename)
    · rw [if_neg hmem]
      exact hmem
  · by_cases hmem : filename ∈ fs.names
    · refine Or.inr ⟨hmem, Nat.find (exists_counter_free fs.names filename) + 1,
        by omega, ?_, Nat.find_spec (exists_counter_free fs.names filename), ?_⟩
      · rw [availableName, if_pos hmem]
      · intro j hj1 hjc
        have hk : j - 1 < Nat.find (exists_counter_free fs.names filename) := by omega
        have hmin := Nat.find_min (exists_counter_free fs.names filename) hk
        have hj : j - 1 + 1 = j := by omega
        rw [hj] at hmin
        exact not_not.mp hmin
    · exact Or.inl ⟨hmem, by rw [availableName, if_neg hmem]⟩

/-- C4 witness: persisting a new `report.pdf` into a folder already holding
`report.pdf` yields `report_1.pdf` with the existing entry untouched. -/
theorem collision_safe_save_witness :
    fsRep.writable = true ∧
    (∃ final : FName,
      save_processed_file fsRep nameRep docB
        = ({ fsRep with entries := fsRep.entries ++ [(final, docB)] }, some final, []) ∧
      final ∉ fsRep.names ∧
      ((nameRep ∉ fsRep.names ∧ final = nameRep) ∨
        (nameRep ∈ fsRep.names ∧ ∃ c : Nat, 1 ≤ c ∧ final = addCounter nameRep c ∧
          addCounter nameRep c ∉ fsRep.names ∧
          ∀ j : Nat, 1 ≤ j → j < c → addCounter nameRep j ∈ fsRep.names)) ∧
      ∀ e ∈ fsRep.entries, e ∈ fsRep.entries ++ [(final, docB)]) ∧
    availableName fsRep.names nameRep = "report_1.pdf".toList :=
  ⟨rfl, collision_safe_save fsRep nameRep docB rfl, by
    have h0 : Nat.find (exists_counter_free fsRep.names nameRep) = 0 :=
      (Nat.find_eq_zero (exists_counter_free fsRep.names nameRep)).mpr (by decide)
    rw [availableName, if_pos (by decide), h0]
    decide⟩

/-- C7 counterexample: in the batch `[fileBad, fileGood]` the failed first
attempt emits no progress update, so progress is never reported as 1/2 — yet
the claim demands a report of completed/total = 1/2 after that attempt. -/
theorem progress_report_counterexample :
    Event.progress (1 / 2)
      ∉ (process_files byteLen0 stamperA [fileBad, fileGood] true fsEmpty).2.2 := by
  intro hmem
  have hfilter : Event.progress (1 / 2)
      ∈ ((process_files byteLen0 stamperA [fileBad, fileGood] true fsEmpty).2.2).filter
        Event.isProgress := List.mem_filter.mpr ⟨hmem, rfl⟩
  have h1 := processFilesGo_progress_events byteLen0 stamperA true 2
    [fileBad, fileGood] fsEmpty 0
  have h2 : ((process_files byteLen0 stamperA [fileBad, fileGood] true fsEmpty).2.2).filter
      Event.isProgress
      = Event.progress 0 ::
        (([(0, fileBad), (1, fileGood)].filterMap (progEntry stamperA 2))
          ++ [Event.progress 1]) := by
    simp [process_files, Event.isProgress, List.filter_append, List.filter_cons, h1,
      List.enumFrom]
  have h3 : [(0, fileBad), (1, fileGood)].filterMap (progEntry stamperA 2)
      = [Event.progress (((1 : Rat) + 1) / 2)] := by
    simp [progEntry, fileBad, fileGood, Stamper.stamp_pdf, Stamper.create_stamp_pdf,
      docB, except_isOk_ok, except_isOk_error]
  rw [h2, h3] at hfilter
  simp only [List.mem_cons, List.mem_append, List.mem_singleton, Event.progress.injEq,
    List.not_mem_nil, or_false] at hfilter
  rcases hfilter with hv | hv | hv <;> norm_num at hv

/-- C7 (amended): the progress bar starts at 0; a cumulative update
`(i+1)/N` is emitted only after each successful attempt — a failed attempt
`continue`s past its update — and after the whole batch an unconditional final
update sets the bar to 1 (= N/N). -/
theorem progress_after_success_only (byteLen : PDFDoc → Nat) (st : Stamper)
    (files : List UFile) (keep : Bool) (fs : Fs) :
    ((process_files byteLen st files keep fs).2.2).filter Event.isProgress
      = Event.progress 0 ::
        ((files.enumFrom 0).filterMap (progEntry st files.length)
          ++ [Event.progress 1]) := by
  have h1 := processFilesGo_progress_events byteLen st keep files.length files fs 0
  simp [process_files, Event.isProgress, List.filter_append, List.filter_cons, h1]

theorem processFilesGo_readonly (byteLen : PDFDoc → Nat) (st : Stamper)
    (keep : Bool) (n : Nat) :
    ∀ (files : List UFile) (fs : Fs) (i : Nat), fs.writable = false →
      (processFilesGo byteLen st keep n fs i files).1 = fs ∧
      (∀ p ∈ (processFilesGo byteLen st keep n fs i files).2.1, p.save_path = none) ∧
      ((processFilesGo byteLen st keep n fs i files).2.2).count Event.saveError
        = ((processFilesGo byteLen st keep n fs i files).2.1).length := by
  intro files
  induction files with
  | nil =>
    intro fs i hw
    exact ⟨rfl, by simp [processFilesGo], by simp [processFilesGo]⟩
  | cons u rest ih =>
    intro fs i hw
    cases hres : st.stamp_pdf u.parsed with
    | error e =>
      obtain ⟨ha, hb, hc⟩ := ih fs (i + 1) hw
      refine ⟨?_, ?_, ?_⟩
      · simp [processFilesGo, hres, ha]
      · intro p hp
        simp only [processFilesGo, hres] at hp
        exact hb p hp
      · simp [processFilesGo, hres, List.count_cons, hc]
    | ok stamped =>
      have hsave : save_processed_file fs (outputName keep u.name) stamped
          = (fs, none, [Event.saveError]) := by
        simp [save_processed_file, hw]
      obtain ⟨ha, hb, hc⟩ := ih fs (i + 1) hw
      refine ⟨?_, ?_, ?_⟩
      · simp [processFilesGo, hres, hsave, ha]
      · intro p hp
        simp only [processFilesGo, hres, hsave, List.mem_cons] at hp
        rcases hp with rfl | hp
        · rfl
        · exact hb p hp
      · simp [processFilesGo, hres, hsave, List.count_cons, List.count_append, hc]

/-- C8 counterexample: with stamping succeeding and persistence failing, the
document is still delivered among the processed results — counted as a success
with an empty persisted path — rather than being converted into a recorded
failure entry. -/
theorem save_failure_counterexample :
    ((process_files byteLen0 stamperA [fileGood] true fsReadOnly).2.1).length = 1 ∧
    ((process_files byteLen0 stamperA [fileGood] true fsReadOnly).2.1).map
        ProcessedFile.save_path = [none] ∧
    Event.saveError ∈ (process_files byteLen0 stamperA [fileGood] true fsReadOnly).2.2 ∧
    ((process_files byteLen0 stamperA [fileGood] true fsReadOnly).2.2).filter
        Event.isStampError = [] := by
  refine ⟨?_, ?_, ?_, ?_⟩ <;>
    simp [process_files, processFilesGo, Stamper.stamp_pdf, Stamper.create_stamp_pdf,
      fileGood, docB, save_processed_file, fsReadOnly, Event.isStampError,
      List.filter_cons, List.filter_append]

/-- C8 (amended): when the destination rejects writes, every affected result's
persisted path is empty (`none`) and one save-error message is emitted per
affected document, but each such document is still delivered among the
processed results — it is not turned into a failure entry. -/
theorem save_failure_keeps_success (byteLen : PDFDoc → Nat) (st : Stamper)
    (files : List UFile) (keep : Bool) (fs : Fs) (hw : fs.writable = false) :
    (process_files byteLen st files keep fs).1 = fs ∧
    (∀ p ∈ (process_files byteLen st files keep fs).2.1, p.save_path = none) ∧
    ((process_files byteLen st files keep fs).2.1).map ProcessedFile.original_name
        = (files.filter fun u => (st.stamp_pdf u.parsed).isOk).map UFile.name ∧
    ((process_files byteLen st files keep fs).2.2).count Event.saveError
        = ((process_files byteLen st files keep fs).2.1).length := by
  obtain ⟨ha, hb, hc⟩ := processFilesGo_readonly byteLen st keep files.length files fs 0 hw
  have h2 := processFilesGo_processed_names byteLen st keep files.length files fs 0
  refine ⟨?_, ?_, ?_, ?_⟩
  · simpa [process_files] using ha
  · intro p hp
    exact hb p (by simpa [process_files] using hp)
  · simpa [process_files] using h2
  · simpa [process_files, List.count_cons, List.count_append] using hc

/-- C8 witness: the one-file batch `[fileGood]` against the read-only
folder. -/
theorem save_failure_keeps_success_witness :
    fsReadOnly.writable = false ∧
    ((process_files byteLen0 stamperA [fileGood] true fsReadOnly).1 = fsReadOnly ∧
     (∀ p ∈ (process_files byteLen0 stamperA [fileGood] true fsReadOnly).2.1,
        p.save_path = none) ∧
     ((process_files byteLen0 stamperA [fileGood] true fsReadOnly).2.1).map
         ProcessedFile.original_name
        = ([fileGood].filter fun u => (stamperA.stamp_pdf u.parsed).isOk).map
            UFile.name ∧
     ((process_files byteLen0 stamperA [fileGood] true fsReadOnly).2.2).count
         Event.saveError
        = ((process_files byteLen0 stamperA [fileGood] true fsReadOnly).2.1).length) :=
  ⟨rfl, save_failure_keeps_success byteLen0 stamperA [fileGood] true fsReadOnly rfl⟩

end PdfStamp
